import Mathlib

/-!
Verification of the text classification, conversion, normalization and
metadata-extraction pipeline of `ingest_legal_cases.py` (manual ingestion
variant) and `ingest_with_docling.py` (docling ingestion variant).

Python strings are modelled as lists of Unicode scalar values (`List Char`),
matching Python's code-point view of `str`.  Each Python regular expression
used by the sources is compiled to a term of a small regex datatype `RE`
whose backtracking matcher `mre` follows Python `re` semantics: ordered
alternation, greedy and lazy repetition over single-character classes,
leftmost search, first result of the backtracking order.  ASCII case folding
stands in for `str.lower` and `re.IGNORECASE` (every pattern literal in the
sources is ASCII).
-/

/-- A Python string: its sequence of Unicode code points. -/
abbrev Str := List Char

/-- White space as Python `str.isspace` and `re` class `\s` recognise it:
the ASCII white space characters, the information separator control codes,
NEL, NBSP, Ogham space mark and the Unicode space separators. -/
def pyIsSpace (c : Char) : Bool :=
  c.toNat = 9 || c.toNat = 10 || c.toNat = 11 || c.toNat = 12 || c.toNat = 13 ||
  c.toNat = 28 || c.toNat = 29 || c.toNat = 30 || c.toNat = 31 || c.toNat = 32 ||
  c.toNat = 133 || c.toNat = 160 || c.toNat = 5760 ||
  (8192 ≤ c.toNat && c.toNat ≤ 8202) ||
  c.toNat = 8232 || c.toNat = 8233 || c.toNat = 8239 || c.toNat = 8287 ||
  c.toNat = 12288

/-- Python `str.strip()`: remove leading and trailing white space. -/
def pyStrip (s : Str) : Str :=
  ((s.dropWhile pyIsSpace).reverse.dropWhile pyIsSpace).reverse

/-- Python substring containment `p in s`. -/
def containsSub (p : Str) : Str → Bool
  | [] => p.isPrefixOf []
  | c :: t => p.isPrefixOf (c :: t) || containsSub p t

/-- Regular expressions, restricted to the constructs the two source files
use: literals (case sensitive, or ASCII case insensitive via `liti`, whose
argument is stored lower-cased), a single-character class, exact repetition
of a class, greedy (`starG`/`plusG`) and lazy (`starL`/`plusL`) repetition
of a class, an optional part, capture groups, ordered alternation,
sequencing, the empty pattern and end of input (`$`). -/
inductive RE where
  | eps : RE
  | lit : Str → RE
  | liti : Str → RE
  | cls : (Char → Bool) → RE
  | rep : (Char → Bool) → Nat → RE
  | starG : (Char → Bool) → RE
  | starL : (Char → Bool) → RE
  | plusG : (Char → Bool) → RE
  | plusL : (Char → Bool) → RE
  | opt : RE → RE
  | grp : RE → RE
  | alt2 : RE → RE → RE
  | seq2 : RE → RE → RE
  | eos : RE

/-- All ways a pattern can match a prefix of `s`, in Python's backtracking
priority order (the head of the list is the match Python reports).  Each
result is the remaining suffix paired with the captured group texts in order
of opening parenthesis.  Repetition is only over single-character classes,
so every alternative consumes a determined prefix and the list is finite. -/
def mre : RE → Str → List (Str × List Str)
  | .eps, s => [(s, [])]
  | .lit p, s => if p.isPrefixOf s then [(s.drop p.length, [])] else []
  | .liti p, s =>
      if p.isPrefixOf ((s.take p.length).map Char.toLower) then
        [(s.drop p.length, [])]
      else []
  | .cls p, s =>
      match s with
      | [] => []
      | c :: cs => if p c then [(cs, [])] else []
  | .rep p n, s =>
      if (s.take n).length = n && (s.take n).all p then [(s.drop n, [])] else []
  | .starG p, s =>
      let m := (s.takeWhile p).length
      (List.range (m + 1)).map fun i => (s.drop (m - i), [])
  | .starL p, s =>
      let m := (s.takeWhile p).length
      (List.range (m + 1)).map fun i => (s.drop i, [])
  | .plusG p, s =>
      let m := (s.takeWhile p).length
      (List.range m).map fun i => (s.drop (m - i), [])
  | .plusL p, s =>
      let m := (s.takeWhile p).length
      (List.range m).map fun i => (s.drop (i + 1), [])
  | .opt r, s => mre r s ++ [(s, [])]
  | .grp r, s => (mre r s).map fun t => (t.1, s.take (s.length - t.1.length) :: t.2)
  | .alt2 a b, s => mre a s ++ mre b s
  | .seq2 a b, s => (mre a s).flatMap fun t => (mre b t.1).map fun u => (u.1, t.2 ++ u.2)
  | .eos, s => if s.isEmpty then [(s, [])] else []

/-- Python `re.search`: try the pattern at each start position, leftmost
first; at a position take the backtracking matcher's first result.  Returns
the whole matched text (group 0), the captured groups, and the suffix of the
input that follows the match. -/
def reSearchAt (r : RE) : Str → Option (Str × List Str × Str)
  | [] => (mre r []).head?.map fun t => (([] : Str), t.2, ([] : Str))
  | c :: cs =>
      match (mre r (c :: cs)).head? with
      | some t => some ((c :: cs).take ((c :: cs).length - t.1.length), t.2, t.1)
      | none => reSearchAt r cs

/-- `re.search` keeping only group 0 and the captured groups. -/
def reSearch (r : RE) (s : Str) : Option (Str × List Str) :=
  (reSearchAt r s).map fun t => (t.1, t.2.1)

/-- Python `re.findall` as the sources use it (patterns with one capture
group): successive non-overlapping leftmost matches, each contributing its
first group; an empty match advances by one character. -/
def reFindAllAux (r : RE) : Nat → Str → List Str
  | 0, _ => []
  | fuel + 1, s =>
      match reSearchAt r s with
      | none => []
      | some (g0, caps, rest) =>
          (caps.head?).getD [] ::
            reFindAllAux r fuel (if g0.isEmpty then rest.drop 1 else rest)

/-- `re.findall` with enough fuel (an empty input still permits one match). -/
def reFindAll (r : RE) (s : Str) : List Str :=
  reFindAllAux r (s.length + 1) s

/-- Sequence a list of pattern items left to right. -/
def reSeq (l : List RE) : RE := l.foldr RE.seq2 RE.eps

/-! ## BengaliDetector (`ingest_legal_cases.py`, lines 64–107) -/

/-- The `BIJOY_CHARS` class attribute.  In the source it is `set(...)` of two
adjacent string literals (Python concatenates them); the resulting set is the
plain space 0x20, the double quote 0x22, the whole range 0xA1–0xF0, and
eighteen Latin-Extended / punctuation code points. -/
def BIJOY_CHARS : List Char :=
  ([0x20, 0x22] ++ (List.range 80).map (fun i => 0xa1 + i) ++
    [0x152, 0x153, 0x160, 0x161, 0x178, 0x17d, 0x17e, 0x2c6, 0x2dc,
     0x2013, 0x2014, 0x2020, 0x2021, 0x2022, 0x2030, 0x2039, 0x203a, 0x2122]).map
    Char.ofNat

/-- The fifteen `BIJOY_PATTERNS` glyph-cluster strings of the source.  The
twelfth contains the grave accent, written here via its code point 96. -/
def BIJOY_PATTERNS : List Str :=
  [ String.data ( "Avgvi" ), String.data ( "Av‡" ), String.data ( "‡K" ),
    String.data ( "Zvwi" ), String.data ( "Kwi" ), String.data ( "wQ" ),
    String.data ( "gvbyl" ), String.data ( "ivÎ" ), String.data ( "UvKv" ),
    String.data ( "FY" ), String.data ( "AvBb" ),
    [ 'A', 'v', Char.ofNat 96, 'v', 'j', 'Z' ],
    String.data ( "Avwg" ), String.data ( "n‡q" ), String.data ( "e‡j" ) ]

/-- `BengaliDetector.detect_unicode_bengali`: the number of characters whose
code point lies in the Bengali Unicode block U+0980..U+09FF. -/
def detect_unicode_bengali (text : Str) : Nat :=
  text.countP fun c => 0x0980 ≤ c.toNat && c.toNat ≤ 0x09FF

/-- `BengaliDetector.detect_bijoy_bengali`: each character of `BIJOY_CHARS`
counts one, and each `BIJOY_PATTERNS` entry that occurs as a substring
counts ten. -/
def detect_bijoy_bengali (text : Str) : Nat :=
  text.countP (fun c => decide (c ∈ BIJOY_CHARS)) +
    10 * BIJOY_PATTERNS.countP (fun p => containsSub p text)

/-- The per-document statistics dictionary built by `detect_encoding`. -/
structure BengaliStats where
  unicode_chars : Nat
  bijoy_indicators : Nat
  total_chars : Nat
deriving DecidableEq

/-- The encoding tag string `mixed`. -/
def mixedS : Str := String.data ( "mixed" )

/-- The encoding tag string `unicode`. -/
def unicodeS : Str := String.data ( "unicode" )

/-- The encoding tag string `bijoy`. -/
def bijoyS : Str := String.data ( "bijoy" )

/-- `BengaliDetector.detect_encoding`: returns
`(has_bengali, encoding_type, stats)` by the source's threshold cascade. -/
def detect_encoding (text : Str) : Bool × Option Str × BengaliStats :=
  let unicode_count := detect_unicode_bengali text
  let bijoy_count := detect_bijoy_bengali text
  let stats : BengaliStats := ⟨unicode_count, bijoy_count, text.length⟩
  if 100 < unicode_count ∧ 50 < bijoy_count then (true, some mixedS, stats)
  else if 100 < unicode_count then (true, some unicodeS, stats)
  else if 30 < bijoy_count then (true, some bijoyS, stats)
  else (false, none, stats)

/-- C4: `detect_encoding` returns `mixed` iff the Unicode-Bengali count
exceeds 100 and the Bijoy-indicator count exceeds 50; otherwise `unicode`
iff the Unicode count exceeds 100; otherwise `bijoy` iff the Bijoy count
exceeds 30; otherwise no encoding, with the rules applied in that order, and
`has_bengali` holds exactly when the verdict is not `None`. -/
theorem c4_detect_encoding_thresholds (text : Str) :
    ((detect_encoding text).2.1 = some mixedS ↔
      100 < detect_unicode_bengali text ∧ 50 < detect_bijoy_bengali text) ∧
    ((detect_encoding text).2.1 = some unicodeS ↔
      100 < detect_unicode_bengali text ∧ detect_bijoy_bengali text ≤ 50) ∧
    ((detect_encoding text).2.1 = some bijoyS ↔
      detect_unicode_bengali text ≤ 100 ∧ 30 < detect_bijoy_bengali text) ∧
    ((detect_encoding text).2.1 = none ↔
      detect_unicode_bengali text ≤ 100 ∧ detect_bijoy_bengali text ≤ 30) ∧
    (detect_encoding text).1 = ((detect_encoding text).2.1).isSome := by
  simp only [detect_encoding]
  split_ifs with hA hB hC <;> simp_all +decide

/-! ## LineConverter (`ingest_legal_cases.py`, lines 128–200) -/

/-- Python `text.split` on a single newline: every occurrence separates,
empty pieces are kept, and the result is never empty. -/
def splitOnNl : Str → List Str
  | [] => [[]]
  | c :: cs =>
      if c = '\n' then [] :: splitOnNl cs
      else (c :: (splitOnNl cs).headI) :: (splitOnNl cs).tail

/-- Python `sep.join`: interleave a separator between the pieces. -/
def joinWith (sep : Str) : List Str → Str
  | [] => []
  | [x] => x
  | x :: y :: xs => x ++ sep ++ joinWith sep (y :: xs)

/-- Join lines with a newline (`'\n'.join`). -/
def joinNl (ls : List Str) : Str := joinWith ['\n'] ls

/-- The `BIJOY_LINE_MARKERS` set of `LegalCaseExtractor`: thirteen characters
present in Bijoy-encoded text and absent from plain English. -/
def BIJOY_LINE_MARKERS : List Char :=
  [0xa8, 0xa9, 0xaf, 0xb6, 0xce, 0xef, 0x152, 0x160, 0x161,
   0x2020, 0x2021, 0x2030, 0x2039].map Char.ofNat

/-- The number of Bijoy marker characters on a line. -/
def bijoyMarkerCount (line : Str) : Nat :=
  line.countP fun c => decide (c ∈ BIJOY_LINE_MARKERS)

/-- `LegalCaseExtractor._is_bijoy_line`: a line is Bijoy if it has at least
`threshold` (default 2) marker characters. -/
def is_bijoy_line (line : Str) (threshold : Nat := 2) : Bool :=
  threshold ≤ bijoyMarkerCount line

/-- One iteration of the conversion loop body: a Bijoy line is sent to the
codec (kept unchanged if the codec fails), any other line passes through
untouched.  The external `bijoy2unicode` codec is a parameter; `none` models
a per-line conversion failure. -/
def convertLine (codec : Str → Option Str) (line : Str) : Str :=
  if is_bijoy_line line then (codec line).getD line else line

/-- The number of lines the loop actually converts (`bijoy_count` in the
source): lines that pass the Bijoy gate and whose codec call succeeds. -/
def convertedLineCount (codec : Str → Option Str) (text : Str) : Nat :=
  ((splitOnNl text).filter fun l => is_bijoy_line l && (codec l).isSome).length

/-- `LegalCaseExtractor.convert_bengali_to_unicode`: when conversion is
disabled the text is returned as is; otherwise each line is processed by
`convertLine` and the rejoined text is returned exactly when at least one
line was converted. -/
def convert_bengali_to_unicode (convert_bijoy : Bool) (codec : Str → Option Str)
    (text : Str) : Str × Bool :=
  if convert_bijoy = false then (text, false)
  else
    let converted_lines := (splitOnNl text).map (convertLine codec)
    if 0 < convertedLineCount codec text then (joinNl converted_lines, true)
    else (text, false)

/-- The line list underlying `convert_bengali_to_unicode`'s output: the
`converted_lines` list of the source when conversion is enabled, the input's
own lines otherwise. -/
def convertedLinesOf (convert_bijoy : Bool) (codec : Str → Option Str)
    (text : Str) : List Str :=
  if convert_bijoy then (splitOnNl text).map (convertLine codec)
  else splitOnNl text

/-! ### Split/join round-trip lemmas -/

theorem splitOnNl_cons_nl (cs : Str) : splitOnNl ('\n' :: cs) = [] :: splitOnNl cs := by
  simp [splitOnNl]

theorem splitOnNl_cons_other (c : Char) (cs : Str) (hc : ¬ c = '\n') :
    splitOnNl (c :: cs) = (c :: (splitOnNl cs).headI) :: (splitOnNl cs).tail := by
  simp [splitOnNl, hc]

theorem splitOnNl_ne_nil (s : Str) : splitOnNl s ≠ [] := by
  induction s with
  | nil => simp [splitOnNl]
  | cons c cs ih => simp only [splitOnNl]; split <;> simp

theorem joinWith_cons_cons (sep : Str) (c : Char) (l : Str) (ls : List Str) :
    joinWith sep ((c :: l) :: ls) = c :: joinWith sep (l :: ls) := by
  cases ls <;> simp [joinWith]

theorem joinNl_splitOnNl (s : Str) : joinNl (splitOnNl s) = s := by
  induction s with
  | nil => simp [splitOnNl, joinNl, joinWith]
  | cons c cs ih =>
    rcases h : splitOnNl cs with _ | ⟨l, ls⟩
    · exact absurd h (splitOnNl_ne_nil cs)
    · rw [h] at ih
      by_cases hc : c = '\n'
      · subst hc
        rw [splitOnNl_cons_nl, h]
        simpa [joinNl, joinWith] using ih
      · rw [splitOnNl_cons_other c cs hc, h]
        simpa [joinNl, joinWith_cons_cons, List.headI, List.tail] using ih

theorem splitOnNl_no_nl (s : Str) : ∀ l ∈ splitOnNl s, ('\n' : Char) ∉ l := by
  induction s with
  | nil => simp [splitOnNl]
  | cons c cs ih =>
    rcases h : splitOnNl cs with _ | ⟨p, ps⟩
    · exact absurd h (splitOnNl_ne_nil cs)
    · rw [h] at ih
      by_cases hc : c = '\n'
      · subst hc
        rw [splitOnNl_cons_nl, h]
        intro l hl
        rw [List.mem_cons] at hl
        rcases hl with rfl | hl
        · simp
        · exact ih l hl
      · rw [splitOnNl_cons_other c cs hc, h]
        intro l hl
        rw [List.mem_cons] at hl
        rcases hl with rfl | hl
        · intro hmem
          rw [List.mem_cons] at hmem
          rcases hmem with he | hmem
          · exact hc he.symm
          · exact ih p (List.mem_cons_self p ps) (by simpa [List.headI] using hmem)
        · exact ih l (List.mem_cons_of_mem p (by simpa [List.tail] using hl))

theorem splitOnNl_single (x : Str) (hx : ('\n' : Char) ∉ x) : splitOnNl x = [x] := by
  induction x with
  | nil => simp [splitOnNl]
  | cons c cs ih =>
    have hc : ¬ c = '\n' := fun h => hx (h ▸ List.mem_cons_self c cs)
    rw [splitOnNl_cons_other c cs hc, ih (fun h => hx (List.mem_cons_of_mem c h))]
    simp [List.headI, List.tail]

theorem splitOnNl_append (x t : Str) (hx : ('\n' : Char) ∉ x) :
    splitOnNl (x ++ '\n' :: t) = x :: splitOnNl t := by
  induction x with
  | nil => simp [splitOnNl_cons_nl]
  | cons c cs ih =>
    have hc : ¬ c = '\n' := fun h => hx (h ▸ List.mem_cons_self c cs)
    have ih' := ih (fun h => hx (List.mem_cons_of_mem c h))
    rw [List.cons_append, splitOnNl_cons_other c _ hc, ih']
    simp [List.headI, List.tail]

theorem splitOnNl_joinNl (ls : List Str) (hne : ls ≠ [])
    (hnl : ∀ l ∈ ls, ('\n' : Char) ∉ l) : splitOnNl (joinNl ls) = ls := by
  induction ls with
  | nil => exact absurd rfl hne
  | cons x xs ih =>
    rcases xs with _ | ⟨y, ys⟩
    · exact splitOnNl_single x (hnl x (by simp))
    · have hj : joinNl (x :: y :: ys) = x ++ '\n' :: joinNl (y :: ys) := by
        simp [joinNl, joinWith]
      rw [hj, splitOnNl_append x _ (hnl x (by simp)),
        ih (by simp) (fun l hl => hnl l (List.mem_cons_of_mem x hl))]

/-! ### C2: lines below the marker threshold pass through unchanged -/

theorem convertLine_low_marker (codec : Str → Option Str) (line : Str)
    (hlow : bijoyMarkerCount line < 2) : convertLine codec line = line := by
  have hb : is_bijoy_line line = false := by
    unfold is_bijoy_line
    simp only [decide_eq_false_iff_not]
    omega
  simp [convertLine, hb]

/-- C2: for every document and every line of it with fewer than two Bijoy
marker characters, `convert_bengali_to_unicode` keeps that line character for
character (position by position in the converted line list), whether or not
conversion is enabled; moreover its output text is exactly the newline-join
of that converted line list. -/
theorem c2_low_marker_lines_unchanged (cb : Bool) (codec : Str → Option Str)
    (text : Str) (i : Nat) (line : Str)
    (hline : (splitOnNl text)[i]? = some line)
    (hlow : bijoyMarkerCount line < 2) :
    (convertedLinesOf cb codec text)[i]? = some line ∧
    (convert_bengali_to_unicode cb codec text).1 =
      joinNl (convertedLinesOf cb codec text) := by
  constructor
  · by_cases hcb : cb = true
    · subst hcb
      simp [convertedLinesOf, List.getElem?_map, hline,
        convertLine_low_marker codec line hlow]
    · have : cb = false := by cases cb <;> simp_all
      simp [convertedLinesOf, this, hline]
  · by_cases hcb : cb = true
    · subst hcb
      by_cases hcnt : 0 < convertedLineCount codec text
      · simp [convert_bengali_to_unicode, convertedLinesOf, hcnt]
      · have hzero : convertedLineCount codec text = 0 := by omega
        have hall : ∀ l ∈ splitOnNl text, convertLine codec l = l := by
          intro l hl
          have hnil := (List.length_eq_zero.mp hzero)
          have hnone : ¬ (is_bijoy_line l && (codec l).isSome) = true := by
            have := List.filter_eq_nil_iff.mp hnil l hl
            simpa using this
          by_cases hb : is_bijoy_line l = true
          · have hs : (codec l).isSome = false := by
              cases hso : (codec l).isSome
              · rfl
              · exact absurd (by simp [hb, hso]) hnone
            have hn : codec l = none := Option.not_isSome_iff_eq_none.mp (by simp [hs])
            simp [convertLine, hb, hn]
          · simp [convertLine, Bool.of_not_eq_true hb]
        have hmap : (splitOnNl text).map (convertLine codec) = splitOnNl text := by
          calc (splitOnNl text).map (convertLine codec)
              = (splitOnNl text).map id := List.map_congr_left hall
            _ = splitOnNl text := List.map_id _
        simp [convert_bengali_to_unicode, convertedLinesOf, hcnt, hmap,
          joinNl_splitOnNl]
    · have hf : cb = false := by cases cb <;> simp_all
      simp [convert_bengali_to_unicode, convertedLinesOf, hf, joinNl_splitOnNl]

/-- A concrete codec for checking the conversion theorems. -/
def c2Codec : Str → Option Str := fun _ => some []

/-- A concrete two-line document for checking the conversion theorems. -/
def c2Text : Str := ['a', '\n', 'b']

/-- Witness for C2 at a concrete document, line index and codec. -/
theorem c2_witness :
    (splitOnNl c2Text)[0]? = some ['a'] ∧ bijoyMarkerCount ['a'] < 2 ∧
    ((convertedLinesOf true c2Codec c2Text)[0]? = some ['a'] ∧
     (convert_bengali_to_unicode true c2Codec c2Text).1 =
       joinNl (convertedLinesOf true c2Codec c2Text)) :=
  ⟨by decide, by decide,
    c2_low_marker_lines_unchanged true c2Codec c2Text 0 ['a'] (by decide) (by decide)⟩

/-! ### C6: conversion is idempotent on its own output -/

theorem markers_not_bengali (c : Char) (h1 : 0x0980 ≤ c.toNat) (h2 : c.toNat ≤ 0x09FF) :
    c ∉ BIJOY_LINE_MARKERS := by
  intro hc
  simp only [BIJOY_LINE_MARKERS, List.map_cons, List.map_nil, List.mem_cons,
    List.not_mem_nil, or_false] at hc
  rcases hc with rfl | rfl | rfl | rfl | rfl | rfl | rfl | rfl | rfl | rfl | rfl | rfl | rfl <;>
    revert h1 h2 <;> decide

theorem bengali_line_not_bijoy (out : Str)
    (h : ∀ c ∈ out, 0x0980 ≤ c.toNat ∧ c.toNat ≤ 0x09FF) :
    is_bijoy_line out = false := by
  have hcount : bijoyMarkerCount out = 0 := by
    unfold bijoyMarkerCount
    rw [List.countP_eq_zero]
    intro c hc
    simp only [decide_eq_true_eq]
    exact markers_not_bengali c (h c hc).1 (h c hc).2
  unfold is_bijoy_line
  simp [hcount]

/-- C6: with a codec whose outputs are composed purely of native-script
(Bengali block) code points — the behaviour of the external
`bijoy2unicode` converter — `convert_bengali_to_unicode` applied to its own
output returns that text unchanged with the converted flag off:
already-Unicode lines are never re-flagged as legacy. -/
theorem c6_convert_idempotent (cb : Bool) (codec : Str → Option Str)
    (hcodec : ∀ l out, codec l = some out → ∀ c ∈ out,
      0x0980 ≤ c.toNat ∧ c.toNat ≤ 0x09FF)
    (text : Str) :
    convert_bengali_to_unicode cb codec
        ((convert_bengali_to_unicode cb codec text).1) =
      ((convert_bengali_to_unicode cb codec text).1, false) := by
  by_cases hcb : cb = true
  · subst hcb
    by_cases hcnt : 0 < convertedLineCount codec text
    · have h1 : convert_bengali_to_unicode true codec text =
          (joinNl ((splitOnNl text).map (convertLine codec)), true) := by
        simp [convert_bengali_to_unicode, hcnt]
      rw [h1]
      have hCL : ∀ l' ∈ (splitOnNl text).map (convertLine codec),
          ('\n' : Char) ∉ l' ∧ ¬ (is_bijoy_line l' && (codec l').isSome) = true := by
        intro l' hl'
        rcases List.mem_map.mp hl' with ⟨l, hl, rfl⟩
        by_cases hb : is_bijoy_line l = true
        · rcases hco : codec l with _ | out
          · have : convertLine codec l = l := by simp [convertLine, hb, hco]
            rw [this]
            refine ⟨splitOnNl_no_nl text l hl, ?_⟩
            simp [hco]
          · have hout : convertLine codec l = out := by simp [convertLine, hb, hco]
            rw [hout]
            have hben := hcodec l out hco
            refine ⟨?_, ?_⟩
            · intro hmem
              have := (hben '\n' hmem).1
              revert this
              decide
            · simp [bengali_line_not_bijoy out hben]
        · have : convertLine codec l = l := by
            simp [convertLine, Bool.of_not_eq_true hb]
          rw [this]
          refine ⟨splitOnNl_no_nl text l hl, ?_⟩
          simp [Bool.of_not_eq_true hb]
      have hsplit : splitOnNl (joinNl ((splitOnNl text).map (convertLine codec))) =
          (splitOnNl text).map (convertLine codec) := by
        apply splitOnNl_joinNl
        · simp [splitOnNl_ne_nil]
        · exact fun l hl => (hCL l hl).1
      have hcnt2 : convertedLineCount codec
          (joinNl ((splitOnNl text).map (convertLine codec))) = 0 := by
        unfold convertedLineCount
        rw [hsplit, List.length_eq_zero, List.filter_eq_nil_iff]
        exact fun l hl => (hCL l hl).2
      simp [convert_bengali_to_unicode, hcnt2]
    · have h1 : convert_bengali_to_unicode true codec text = (text, false) := by
        simp [convert_bengali_to_unicode, hcnt]
      rw [h1]
      exact h1
  · have hf : cb = false := by cases cb <;> simp_all
    subst hf
    simp [convert_bengali_to_unicode]

/-- A concrete codec whose output is a single Bengali-block character. -/
def c6Codec : Str → Option Str := fun _ => some [Char.ofNat 0x0985]

/-- A concrete one-line Bijoy document (two marker characters). -/
def c6Text : Str := [Char.ofNat 0x2020, Char.ofNat 0x2020]

/-- Witness for C6 at a concrete codec and document. -/
theorem c6_witness :
    convert_bengali_to_unicode true c6Codec
        ((convert_bengali_to_unicode true c6Codec c6Text).1) =
      ((convert_bengali_to_unicode true c6Codec c6Text).1, false) :=
  c6_convert_idempotent true c6Codec
    (by
      intro l out h c hc
      have hout : [Char.ofNat 0x0985] = out := Option.some.inj h
      rw [← hout] at hc
      rcases List.mem_singleton.mp hc with rfl
      decide)
    c6Text

/-! ## TextNormalizer (`ingest_legal_cases.py`, lines 274–318) -/

/-- The line boundaries Python `str.splitlines` recognises. -/
def isLineBreak (c : Char) : Bool :=
  c.toNat = 10 || c.toNat = 13 || c.toNat = 11 || c.toNat = 12 ||
  c.toNat = 28 || c.toNat = 29 || c.toNat = 30 || c.toNat = 133 ||
  c.toNat = 8232 || c.toNat = 8233

/-- Worker for `pySplitlines`: `acc` is the current line, reversed.  A
carriage-return/newline pair is one boundary; a boundary at the end of the
input does not open a final empty line. -/
def pySplitlinesAux (acc : Str) : Str → List Str
  | [] => [acc.reverse]
  | '\r' :: '\n' :: cs =>
      acc.reverse :: (if cs.isEmpty then [] else pySplitlinesAux [] cs)
  | c :: cs =>
      if isLineBreak c then
        acc.reverse :: (if cs.isEmpty then [] else pySplitlinesAux [] cs)
      else pySplitlinesAux (c :: acc) cs

/-- Python `str.splitlines()`. -/
def pySplitlines : Str → List Str
  | [] => []
  | c :: cs => pySplitlinesAux [] (c :: cs)

mutual

/-- Python `re.sub` of `\s+` with a single space: emit one space per maximal
white-space run. -/
def collapseWs : Str → Str
  | [] => []
  | c :: cs => if pyIsSpace c then ' ' :: collapseWsSkip cs else c :: collapseWs cs

/-- Skip the rest of a white-space run already replaced by one space. -/
def collapseWsSkip : Str → Str
  | [] => []
  | c :: cs => if pyIsSpace c then collapseWsSkip cs else c :: collapseWs cs

end

/-- One iteration of the first `normalize_text` loop: strip the line, drop it
if empty, collapse internal white space, keep it only when longer than one
character. -/
def cleanLine (l : Str) : Option Str :=
  let s := pyStrip l
  if s.isEmpty then none
  else
    let s2 := collapseWs s
    if 1 < s2.length then some s2 else none

/-- The `lines` list of `normalize_text`. -/
def cleanLines (text : Str) : List Str :=
  (pySplitlines text).filterMap cleanLine

/-- The page-marker prefix `--- Page` tested by `line.startswith`. -/
def pageMarkerP : Str := String.data ( "--- Page" )

/-- The sentence-terminal characters of the regex `[.:;?!।]$` (the last one
is the danda, U+0964). -/
def sentenceEnd (c : Char) : Bool :=
  decide (c ∈ ['.', ':', ';', '?', '!', Char.ofNat 0x0964])

/-- Whether the buffer matches `[.:;?!।]$`. -/
def endsSentence (b : Str) : Bool :=
  match b.getLast? with
  | some c => sentenceEnd c
  | none => false

/-- The paragraph-merge loop of `normalize_text`, with its accumulating
`buffer`; the final flush of a non-empty buffer included. -/
def mergeLinesAux : List Str → Str → List Str
  | [], buffer => if buffer.isEmpty then [] else [buffer]
  | line :: rest, buffer =>
      if pageMarkerP.isPrefixOf line then
        (if buffer.isEmpty then [] else [buffer]) ++ line :: mergeLinesAux rest []
      else if buffer.isEmpty then mergeLinesAux rest line
      else if endsSentence buffer then buffer :: mergeLinesAux rest line
      else if buffer.getLast? = some '-' ∧ line ≠ [] ∧ (line.headI).isLower then
        mergeLinesAux rest (buffer.dropLast ++ line)
      else mergeLinesAux rest (buffer ++ ' ' :: line)

/-- The `merged_lines` list of `normalize_text`. -/
def mergeLines (lines : List Str) : List Str := mergeLinesAux lines []

/-- Python `re.sub` of `\n{3,}` with two newlines, fuel-indexed: a maximal
newline run of three or more becomes exactly two, shorter runs are kept.
Each step consumes at least one character, so `length + 1` fuel always
suffices; exhausted fuel (unreachable) yields the empty string. -/
def collapseNl3Aux : Nat → Str → Str
  | 0, _ => []
  | _ + 1, [] => []
  | fuel + 1, c :: cs =>
      if c = '\n' then
        (if 3 ≤ (cs.takeWhile (fun d => d = '\n')).length + 1 then ['\n', '\n']
         else c :: cs.takeWhile (fun d => d = '\n')) ++
          collapseNl3Aux fuel (cs.dropWhile (fun d => d = '\n'))
      else c :: collapseNl3Aux fuel cs

/-- Python `re.sub` of `\n{3,}` with two newlines. -/
def collapseNl3 (s : Str) : Str := collapseNl3Aux (s.length + 1) s

/-- The punctuation class of the regex `\s+([.,;:!?])`. -/
def subPunct : List Char := [',', '.', ';', ':', '!', '?']

/-- Python `re.sub` of `\s+([.,;:!?])` with the group, fuel-indexed: delete
any maximal white-space run directly followed by one of the punctuation
marks.  The fuel only bounds the recursion depth; each step consumes at
least one character, so `length + 1` fuel always suffices. -/
def removeWsBeforePunctAux : Nat → Str → Str
  | 0, s => s
  | fuel + 1, s =>
      match s with
      | [] => []
      | c :: cs =>
          if pyIsSpace c then
            match cs.dropWhile pyIsSpace with
            | p :: rs =>
                if decide (p ∈ subPunct) then p :: removeWsBeforePunctAux fuel rs
                else c :: (cs.takeWhile pyIsSpace ++ p :: removeWsBeforePunctAux fuel rs)
            | [] => c :: cs.takeWhile pyIsSpace
          else c :: removeWsBeforePunctAux fuel cs

/-- Python `re.sub` of `\s+([.,;:!?])` with the group. -/
def removeWsBeforePunct (s : Str) : Str :=
  removeWsBeforePunctAux (s.length + 1) s

/-- `LegalCaseExtractor.normalize_text`: clean the physical lines, merge them
into paragraphs, join with blank lines, collapse newline runs and delete
white space before punctuation. -/
def normalize_text (text : Str) : Str :=
  if text.isEmpty then []
  else
    removeWsBeforePunct (collapseNl3 (joinWith ['\n', '\n'] (mergeLines (cleanLines text))))

/-! ### C7: the normalizer's output never holds three consecutive newlines -/

/-- Whether the string contains three consecutive newline characters. -/
def hasTriple : Str → Bool
  | [] => false
  | c :: cs => (c = '\n' && ['\n', '\n'].isPrefixOf cs) || hasTriple cs

/-- Newline-run invariant: scanning with `k` newlines already seen, every
newline run of the remainder keeps the total run length at most two. -/
def nlOk : Str → Nat → Bool
  | [], _ => true
  | c :: cs, k => if c = '\n' then decide (k < 2) && nlOk cs (k + 1) else nlOk cs 0

theorem nlOk_cons_nl (cs : Str) (k : Nat) :
    nlOk ('\n' :: cs) k = (decide (k < 2) && nlOk cs (k + 1)) := by
  simp [nlOk]

theorem nlOk_cons_not_nl {c : Char} (cs : Str) (k : Nat) (hc : ¬ c = '\n') :
    nlOk (c :: cs) k = nlOk cs 0 := by
  simp [nlOk, hc]

theorem nlOk_mono {l : Str} {k k' : Nat} (hk : k' ≤ k) (h : nlOk l k = true) :
    nlOk l k' = true := by
  induction l generalizing k k' with
  | nil => simp [nlOk]
  | cons c cs ih =>
    by_cases hc : c = '\n'
    · subst hc
      rw [nlOk_cons_nl] at h ⊢
      simp only [Bool.and_eq_true, decide_eq_true_eq] at h ⊢
      exact ⟨by omega, ih (by omega) h.2⟩
    · rw [nlOk_cons_not_nl _ _ hc] at h
      rw [nlOk_cons_not_nl _ _ hc]
      exact h

theorem nlOk_tail {c : Char} {cs : Str} {k : Nat} (h : nlOk (c :: cs) k = true) :
    nlOk cs 0 = true := by
  by_cases hc : c = '\n'
  · subst hc
    rw [nlOk_cons_nl] at h
    simp only [Bool.and_eq_true] at h
    exact nlOk_mono (Nat.zero_le _) h.2
  · rw [nlOk_cons_not_nl _ _ hc] at h
    exact h

theorem nlOk_dropWhile (q : Char → Bool) {l : Str} (h : nlOk l 0 = true) :
    nlOk (l.dropWhile q) 0 = true := by
  induction l with
  | nil => simpa using h
  | cons c cs ih =>
    by_cases hq : q c
    · simpa [List.dropWhile, hq] using ih (nlOk_tail h)
    · simpa [List.dropWhile, hq] using h

theorem nlOk_append_left {a b : Str} {k : Nat} (h : nlOk (a ++ b) k = true) :
    nlOk a k = true := by
  induction a generalizing k with
  | nil => simp [nlOk]
  | cons c cs ih =>
    by_cases hc : c = '\n'
    · subst hc
      rw [List.cons_append, nlOk_cons_nl] at h
      rw [nlOk_cons_nl]
      simp only [Bool.and_eq_true] at h ⊢
      exact ⟨h.1, ih h.2⟩
    · rw [List.cons_append, nlOk_cons_not_nl _ _ hc] at h
      rw [nlOk_cons_not_nl _ _ hc]
      exact ih h

theorem nlOk_append {a b : Str} {k : Nat} (ha : nlOk a k = true)
    (hb : nlOk b 0 = true) (hhead : ∀ d ds, b = d :: ds → ¬ d = '\n') :
    nlOk (a ++ b) k = true := by
  induction a generalizing k with
  | nil =>
    rcases b with _ | ⟨d, ds⟩
    · simp [nlOk]
    · rw [List.nil_append, nlOk_cons_not_nl ds k (hhead d ds rfl)]
      rw [nlOk_cons_not_nl ds 0 (hhead d ds rfl)] at hb
      exact hb
  | cons c cs ih =>
    by_cases hc : c = '\n'
    · subst hc
      rw [nlOk_cons_nl] at ha
      rw [List.cons_append, nlOk_cons_nl]
      simp only [Bool.and_eq_true] at ha ⊢
      exact ⟨ha.1, ih ha.2⟩
    · rw [nlOk_cons_not_nl _ _ hc] at ha
      rw [List.cons_append, nlOk_cons_not_nl _ _ hc]
      exact ih ha

theorem dropWhile_head_not (q : Char → Bool) (l : Str) {x : Char} {xs : Str}
    (h : l.dropWhile q = x :: xs) : q x = false := by
  induction l with
  | nil => simp [List.dropWhile] at h
  | cons c cs ih =>
    by_cases hq : q c
    · exact ih (by simpa [List.dropWhile, hq] using h)
    · rw [List.dropWhile_cons_of_neg (by simpa using hq)] at h
      cases h
      simpa using hq

theorem collapseNl3Aux_head (f : Nat) (l : Str)
    (hl : ∀ x, l.head? = some x → ¬ x = '\n') :
    ∀ d ds, collapseNl3Aux f l = d :: ds → ¬ d = '\n' := by
  rcases f with _ | f
  · intro d ds hd
    simp [collapseNl3Aux] at hd
  · rcases l with _ | ⟨c, cs⟩
    · intro d ds hd
      simp [collapseNl3Aux] at hd
    · have hc : ¬ c = '\n' := hl c rfl
      intro d ds hd
      rw [show collapseNl3Aux (f + 1) (c :: cs) = c :: collapseNl3Aux f cs by
        simp [collapseNl3Aux, hc]] at hd
      cases hd
      exact hc

theorem nlOk_collapseNl3Aux (fuel : Nat) :
    ∀ l, nlOk (collapseNl3Aux fuel l) 0 = true := by
  induction fuel with
  | zero => intro l; simp [collapseNl3Aux, nlOk]
  | succ f ih =>
    intro l
    rcases l with _ | ⟨c, cs⟩
    · simp [collapseNl3Aux, nlOk]
    · by_cases hc : c = '\n'
      · subst hc
        rw [show collapseNl3Aux (f + 1) ('\n' :: cs) =
            (if 3 ≤ (cs.takeWhile (fun d => d = '\n')).length + 1 then ['\n', '\n']
             else '\n' :: cs.takeWhile (fun d => d = '\n')) ++
              collapseNl3Aux f (cs.dropWhile (fun d => d = '\n')) by
          simp [collapseNl3Aux]]
        have hrest : ∀ d ds,
            collapseNl3Aux f (cs.dropWhile (fun d => d = '\n')) = d :: ds →
            ¬ d = '\n' := by
          apply collapseNl3Aux_head
          intro x hx
          rcases hr : cs.dropWhile (fun d => d = '\n') with _ | ⟨y, ys⟩
          · rw [hr] at hx
            cases hx
          · rw [hr] at hx
            cases hx
            have := dropWhile_head_not (fun d => d = '\n') cs hr
            simpa using this
        split
        · exact nlOk_append (by simp [nlOk]) (ih _) hrest
        · rename_i hlen
          have hrun : cs.takeWhile (fun d => d = '\n') = [] ∨
              cs.takeWhile (fun d => d = '\n') = ['\n'] := by
            rcases ht : cs.takeWhile (fun d => d = '\n') with _ | ⟨a, _ | ⟨b, t⟩⟩
            · exact Or.inl rfl
            · have ha : a = '\n' := by
                have := List.mem_takeWhile_imp (l := cs) (p := fun d => decide (d = '\n'))
                  (ht ▸ List.mem_cons_self a [])
                simpa using this
              exact Or.inr (by rw [ha])
            · rw [ht] at hlen
              simp at hlen
          rcases hrun with hrun | hrun <;>
            rw [hrun] <;>
            exact nlOk_append (by simp [nlOk]) (ih _) hrest
      · rw [show collapseNl3Aux (f + 1) (c :: cs) = c :: collapseNl3Aux f cs by
          simp [collapseNl3Aux, hc]]
        rw [nlOk_cons_not_nl _ _ hc]
        exact ih cs

theorem nlOk_collapseNl3 (l : Str) : nlOk (collapseNl3 l) 0 = true :=
  nlOk_collapseNl3Aux (l.length + 1) l

theorem subPunct_not_nl {p : Char} (hp : p ∈ subPunct) : ¬ p = '\n' := by
  intro hpe
  subst hpe
  revert hp
  decide

theorem nlOk_removeWsBeforePunctAux (fuel : Nat) :
    ∀ l, nlOk l 0 = true → nlOk (removeWsBeforePunctAux fuel l) 0 = true := by
  induction fuel with
  | zero => intro l h; simpa [removeWsBeforePunctAux] using h
  | succ f ih =>
    intro l h
    rcases l with _ | ⟨c, cs⟩
    · simp [removeWsBeforePunctAux, nlOk]
    · by_cases hsp : pyIsSpace c = true
      · rcases hdw : cs.dropWhile pyIsSpace with _ | ⟨p, rs⟩
        · rw [show removeWsBeforePunctAux (f + 1) (c :: cs) = c :: cs.takeWhile pyIsSpace by
            simp [removeWsBeforePunctAux, hsp, hdw]]
          apply nlOk_append_left (b := cs.dropWhile pyIsSpace)
          rw [show (c :: cs.takeWhile pyIsSpace) ++ cs.dropWhile pyIsSpace = c :: cs by
            rw [List.cons_append, List.takeWhile_append_dropWhile]]
          exact h
        · have hrs : nlOk rs 0 = true :=
            nlOk_tail (hdw ▸ nlOk_dropWhile pyIsSpace (nlOk_tail h))
          have hpnl : ¬ p = '\n' := by
            intro hpe
            have := dropWhile_head_not pyIsSpace cs hdw
            rw [hpe] at this
            exact absurd this (by decide)
          by_cases hp : decide (p ∈ subPunct) = true
          · rw [show removeWsBeforePunctAux (f + 1) (c :: cs) =
                p :: removeWsBeforePunctAux f rs by
              simp [removeWsBeforePunctAux, hsp, hdw, hp]]
            rw [nlOk_cons_not_nl _ _ hpnl]
            exact ih rs hrs
          · rw [show removeWsBeforePunctAux (f + 1) (c :: cs) =
                c :: (cs.takeWhile pyIsSpace ++ p :: removeWsBeforePunctAux f rs) by
              simp [removeWsBeforePunctAux, hsp, hdw, hp]]
            have hpre : nlOk (c :: cs.takeWhile pyIsSpace) 0 = true := by
              apply nlOk_append_left (b := cs.dropWhile pyIsSpace)
              rw [show (c :: cs.takeWhile pyIsSpace) ++ cs.dropWhile pyIsSpace = c :: cs by
                rw [List.cons_append, List.takeWhile_append_dropWhile]]
              exact h
            rw [show c :: (cs.takeWhile pyIsSpace ++ p :: removeWsBeforePunctAux f rs) =
                (c :: cs.takeWhile pyIsSpace) ++ (p :: removeWsBeforePunctAux f rs) by simp]
            apply nlOk_append hpre
            · rw [nlOk_cons_not_nl _ _ hpnl]
              exact ih rs hrs
            · intro d ds hd
              cases hd
              exact hpnl
      · have hc : ¬ c = '\n' := fun he => hsp (by rw [he]; decide)
        rw [show removeWsBeforePunctAux (f + 1) (c :: cs) =
            c :: removeWsBeforePunctAux f cs by simp [removeWsBeforePunctAux, hsp]]
        rw [nlOk_cons_not_nl _ _ hc]
        exact ih cs (nlOk_tail h)

theorem nlOk_removeWsBeforePunct (l : Str) (h : nlOk l 0 = true) :
    nlOk (removeWsBeforePunct l) 0 = true :=
  nlOk_removeWsBeforePunctAux (l.length + 1) l h

theorem nlOk_false_of_hasTriple {l : Str} (h : hasTriple l = true) :
    ∀ k, nlOk l k = false := by
  induction l with
  | nil => simp [hasTriple] at h
  | cons c cs ih =>
    intro k
    simp only [hasTriple, Bool.or_eq_true, Bool.and_eq_true, decide_eq_true_eq] at h
    rcases h with ⟨hc, hpre⟩ | h
    · subst hc
      rcases (List.isPrefixOf_iff_prefix.mp hpre) with ⟨t, ht⟩
      rw [← ht]
      simp only [List.cons_append, List.nil_append]
      rw [nlOk_cons_nl, nlOk_cons_nl, nlOk_cons_nl]
      have h2 : decide (k + 1 + 1 < 2) = false := by simp
      simp [h2]
    · by_cases hc : c = '\n'
      · subst hc
        rw [nlOk_cons_nl]
        simp [ih h (k + 1)]
      · rw [nlOk_cons_not_nl _ _ hc]
        exact ih h 0

/-- C7: `normalize_text` of the empty string is the empty string, and no
output of `normalize_text` ever contains three or more consecutive newline
characters. -/
theorem c7_normalize_empty_and_no_triple_newline :
    normalize_text [] = [] ∧ ∀ text : Str, hasTriple (normalize_text text) = false := by
  constructor
  · rfl
  · intro text
    unfold normalize_text
    by_cases ht : text.isEmpty
    · simp [ht, hasTriple]
    · rw [if_neg (by simpa using ht)]
      have h1 : nlOk (removeWsBeforePunct (collapseNl3
          (joinWith ['\n', '\n'] (mergeLines (cleanLines text))))) 0 = true :=
        nlOk_removeWsBeforePunct _ (nlOk_collapseNl3 _)
      cases hht : hasTriple (removeWsBeforePunct (collapseNl3
          (joinWith ['\n', '\n'] (mergeLines (cleanLines text))))) with
      | false => rfl
      | true =>
          rw [nlOk_false_of_hasTriple hht 0] at h1
          cases h1

/-! ## MetadataExtractor (`ingest_legal_cases.py`, lines 202–272 and
`ingest_with_docling.py`, lines 126–241)

Each Python regular expression is rendered as an `RE` term; `liti` literals
are written lower-case because the pattern carries `re.IGNORECASE`. -/

/-- The regex class `[A-Za-z]`. -/
def isAZ (c : Char) : Bool := ('A' ≤ c && c ≤ 'Z') || ('a' ≤ c && c ≤ 'z')

/-- The regex class `[A-Za-z\s.]`. -/
def azSpDot (c : Char) : Bool := isAZ c || pyIsSpace c || c = '.'

/-- The regex class `[A-Za-z\s]`. -/
def azSp (c : Char) : Bool := isAZ c || pyIsSpace c

/-- The regex class `[.\s]`. -/
def dotSp (c : Char) : Bool := c = '.' || pyIsSpace c

/-- The regex class `[/\s]`. -/
def slashSp (c : Char) : Bool := c = '/' || pyIsSpace c

/-- The regex class of a slash or a dash (`[` `/` `-` `]`). -/
def slashDash (c : Char) : Bool := c = '/' || c = '-'

/-- The regex class `[^\n]`. -/
def notNl (c : Char) : Bool := !(c = '\n')

/-- A case-sensitive literal pattern. -/
def reLit (s : String) : RE := RE.lit s.data

/-- A case-insensitive literal pattern (written lower-case). -/
def reLiti (s : String) : RE := RE.liti s.data

/-- The shape `LABEL[.\s]+(\d+)\s+of\s+(\d+)` shared by the labelled
case-number patterns of both sources. -/
def caseNumPat (label : String) : RE :=
  reSeq [reLiti label, RE.plusG dotSp, RE.grp (RE.plusG Char.isDigit),
    RE.plusG pyIsSpace, reLiti ( "of" ), RE.plusG pyIsSpace,
    RE.grp (RE.plusG Char.isDigit)]

/-- The pattern `Case No[.\s]+(\d+)[/\s]+(\d+)`. -/
def caseNoSlashPat : RE :=
  reSeq [reLiti ( "case no" ), RE.plusG dotSp, RE.grp (RE.plusG Char.isDigit),
    RE.plusG slashSp, RE.grp (RE.plusG Char.isDigit)]

/-- `case_num_patterns` of the manual variant (three patterns). -/
def manual_case_patterns : List RE :=
  [caseNumPat ( "death reference no" ), caseNumPat ( "criminal appeal no" ),
   caseNoSlashPat]

/-- First pattern of an ordered list that matches anywhere in the text. -/
def firstMatch (pats : List RE) (text : Str) : Option (Str × List Str) :=
  match pats with
  | [] => none
  | p :: ps =>
      match reSearch p text with
      | some r => some r
      | none => firstMatch ps text

/-- The filename fallback pattern `(\d+)_([A-Za-z]+)_` (case sensitive). -/
def filename_case_pattern : RE :=
  reSeq [RE.grp (RE.plusG Char.isDigit), reLit ( "_" ),
    RE.grp (RE.plusG isAZ), reLit ( "_" )]

/-- Python `str.rstrip` of the underscore. -/
def rstripUnderscore (s : Str) : Str :=
  (s.reverse.dropWhile (fun c => c = '_')).reverse

/-- Case-number extraction of the manual variant: first matching labelled
pattern's whole match, else the filename fallback with trailing underscores
stripped. -/
def manual_case_number (text fname : Str) : Option Str :=
  match firstMatch manual_case_patterns text with
  | some r => some r.1
  | none =>
      match reSearch filename_case_pattern fname with
      | some r => some (rstripUnderscore r.1)
      | none => none

/-- The `case_types` vocabulary (identical in both variants). -/
def case_types : List Str :=
  [ String.data ( "Death Reference" ), String.data ( "Criminal Appeal" ),
    String.data ( "Civil Appeal" ), String.data ( "Criminal Revision" ),
    String.data ( "Civil Revision" ), String.data ( "Writ Petition" ) ]

/-- Python `str.lower` (ASCII folding). -/
def toLowerStr (s : Str) : Str := s.map Char.toLower

/-- Case-type detection: first label whose lower-cased form is a substring
of the lower-cased text. -/
def find_case_type (text : Str) : Option Str :=
  case_types.find? fun ct => containsSub (toLowerStr ct) (toLowerStr text)

/-- The manual district pattern `District:\s*([A-Za-z\s]+)\.`. -/
def manual_district_pattern : RE :=
  reSeq [reLit ( "District:" ), RE.starG pyIsSpace, RE.grp (RE.plusG azSp),
    reLit ( "." )]

/-- District extraction of the manual variant (group 1, stripped). -/
def manual_district (text : Str) : Option Str :=
  (reSearch manual_district_pattern text).map fun r => pyStrip ((r.2.head?).getD [])

/-- The manual court pattern `(Supreme Court of Bangladesh[^\n]*)`. -/
def manual_court_pattern : RE :=
  RE.grp (reSeq [reLit ( "Supreme Court of Bangladesh" ), RE.starG notNl])

/-- Court extraction of the manual variant (group 1, stripped). -/
def manual_court (text : Str) : Option Str :=
  (reSearch manual_court_pattern text).map fun r => pyStrip ((r.2.head?).getD [])

/-- The manual judge patterns `Mr\. Justice ([A-Za-z\s\.]+)` and
`Justice ([A-Za-z\s\.]+)` (case sensitive, literal single spaces). -/
def manual_judge_patterns : List RE :=
  [ reSeq [reLit ( "Mr. Justice " ), RE.grp (RE.plusG azSpDot)],
    reSeq [reLit ( "Justice " ), RE.grp (RE.plusG azSpDot)] ]

/-- All judge matches of the manual variant: `findall` of every pattern over
the first 2000 characters, each group stripped, in pattern order. -/
def manual_judges_found (text : Str) : List Str :=
  manual_judge_patterns.flatMap fun p => (reFindAll p (text.take 2000)).map pyStrip

/-- Python `list(dict.fromkeys(...))`: keep the first occurrence of each
entry, preserving order.  `seen` holds the keys already emitted. -/
def dedupFirstAux (seen : List Str) : List Str → List Str
  | [] => []
  | x :: xs =>
      if x ∈ seen then dedupFirstAux seen xs
      else x :: dedupFirstAux (x :: seen) xs

/-- Deduplication preserving first occurrences. -/
def dedupFirst (l : List Str) : List Str := dedupFirstAux [] l

/-- Python dict assignment `d[k] = v`: update in place or append. -/
def dictSet (d : List (Str × Str)) (k v : Str) : List (Str × Str) :=
  if d.any (fun kv => kv.1 = k) then
    d.map fun kv => if kv.1 = k then (k, v) else kv
  else d ++ [(k, v)]

/-- The parties key `plaintiff`. -/
def plaintiffK : Str := String.data ( "plaintiff" )

/-- The parties key `defendant`. -/
def defendantK : Str := String.data ( "defendant" )

/-- The manual versus pattern
`([A-Za-z\s\.]+)\s+-?\s*Versus\s*-?\s*([A-Za-z\s\.]+)` with IGNORECASE. -/
def manual_versus_pattern : RE :=
  reSeq [RE.grp (RE.plusG azSpDot), RE.plusG pyIsSpace, RE.opt (RE.lit ['-']),
    RE.starG pyIsSpace, reLiti ( "versus" ), RE.starG pyIsSpace,
    RE.opt (RE.lit ['-']), RE.starG pyIsSpace, RE.grp (RE.plusG azSpDot)]

/-- Parties extraction of the manual variant: on a match set `plaintiff`
then `defendant` from the two stripped groups; otherwise leave the mapping
empty. -/
def manual_parties (text : Str) : List (Str × Str) :=
  match reSearch manual_versus_pattern text with
  | some r =>
      dictSet (dictSet [] plaintiffK (pyStrip ((r.2[0]?).getD [])))
        defendantK (pyStrip ((r.2[1]?).getD []))
  | none => []

/-- The dot-separated date `[0-9]{2}\.[0-9]{2}\.[0-9]{4}` as a sequence. -/
def datePatDots : List RE :=
  [RE.rep Char.isDigit 2, reLit ( "." ), RE.rep Char.isDigit 2, reLit ( "." ),
   RE.rep Char.isDigit 4]

/-- The manual hearing pattern `Heard On:` with one date and an optional
`and`-joined second date, all captured as group 1. -/
def manual_hearing_pattern : RE :=
  reSeq [reLit ( "Heard On:" ), RE.starG pyIsSpace,
    RE.grp (reSeq (datePatDots ++
      [RE.opt (reSeq ([RE.plusG pyIsSpace, reLit ( "and" ), RE.plusG pyIsSpace] ++
        datePatDots))]))]

/-- Hearing-date extraction of the manual variant (group 1, as matched). -/
def manual_hearing (text : Str) : Option Str :=
  (reSearch manual_hearing_pattern text).map fun r => (r.2.head?).getD []

/-- The manual judgment pattern `Judgment Delivered On:` with one date. -/
def manual_judgment_pattern : RE :=
  reSeq [reLit ( "Judgment Delivered On:" ), RE.starG pyIsSpace,
    RE.grp (reSeq datePatDots)]

/-- Judgment-date extraction of the manual variant (group 1, as matched). -/
def manual_judgment (text : Str) : Option Str :=
  (reSearch manual_judgment_pattern text).map fun r => (r.2.head?).getD []

/-- The `CaseMetadata` record of the manual variant. -/
structure CaseMetadata where
  case_number : Option Str := none
  case_type : Option Str := none
  district : Option Str := none
  court : Option Str := none
  judges : List Str := []
  parties : List (Str × Str) := []
  hearing_date : Option Str := none
  judgment_date : Option Str := none
  citations : List Str := []
  has_bengali : Bool := false
  original_encoding : Option Str := none
  converted_to_unicode : Bool := false
deriving DecidableEq

/-- `LegalCaseExtractor.extract_metadata`: encoding detection on the given
(raw) text, then the independent field extractors; `converted_to_unicode`
stays at its default here and is set later by `process_pdf`. -/
def manual_extract_metadata (text fname : Str) : CaseMetadata :=
  { case_number := manual_case_number text fname
    case_type := find_case_type text
    district := manual_district text
    court := manual_court text
    judges := (dedupFirst (manual_judges_found text)).take 5
    parties := manual_parties text
    hearing_date := manual_hearing text
    judgment_date := manual_judgment text
    citations := []
    has_bengali := (detect_encoding text).1
    original_encoding := (detect_encoding text).2.1
    converted_to_unicode := false }

/-! ### The docling variant's extractor (`ingest_with_docling.py`) -/

/-- `case_patterns` of the docling variant (seven patterns). -/
def docling_case_patterns : List RE :=
  [caseNumPat ( "death reference no" ), caseNumPat ( "criminal appeal no" ),
   caseNumPat ( "civil appeal no" ), caseNumPat ( "criminal revision no" ),
   caseNumPat ( "civil revision no" ), caseNumPat ( "writ petition no" ),
   caseNoSlashPat]

/-- Case-number extraction of the docling variant: first matching pattern's
whole match stripped, else the filename fallback. -/
def docling_case_number (text fname : Str) : Option Str :=
  match firstMatch docling_case_patterns text with
  | some r => some (pyStrip r.1)
  | none =>
      match reSearch filename_case_pattern fname with
      | some r => some (rstripUnderscore r.1)
      | none => none

/-- The three docling court patterns. -/
def docling_court_patterns : List RE :=
  [ RE.grp (reSeq [reLit ( "Supreme Court of Bangladesh" ), RE.starG notNl]),
    RE.grp (reSeq [reLit ( "High Court Division" ), RE.starG notNl]),
    RE.grp (reSeq [reLit ( "Appellate Division" ), RE.starG notNl]) ]

/-- Court extraction of the docling variant. -/
def docling_court (text : Str) : Option Str :=
  (firstMatch docling_court_patterns text).map fun r => pyStrip ((r.2.head?).getD [])

/-- The docling district pattern `District:\s*([A-Za-z\s]+)\.?`. -/
def docling_district_pattern : RE :=
  reSeq [reLit ( "District:" ), RE.starG pyIsSpace, RE.grp (RE.plusG azSp),
    RE.opt (RE.lit ['.'])]

/-- District extraction of the docling variant. -/
def docling_district (text : Str) : Option Str :=
  (reSearch docling_district_pattern text).map fun r => pyStrip ((r.2.head?).getD [])

/-- The non-capturing boundary `(?:\n|And|$)`. -/
def nlAndEnd : RE := RE.alt2 (RE.lit ['\n']) (RE.alt2 (reLit ( "And" )) RE.eos)

/-- The non-capturing boundary `(?:\n|$)`. -/
def nlEnd : RE := RE.alt2 (RE.lit ['\n']) RE.eos

/-- The literal `Hon'ble` (apostrophe written via its code point 39). -/
def honble : Str := ['H', 'o', 'n', Char.ofNat 39, 'b', 'l', 'e']

/-- The three docling judge patterns, with lazy name groups and explicit
boundaries. -/
def docling_judge_patterns : List RE :=
  [ reSeq [reLit ( "Mr." ), RE.starG pyIsSpace, reLit ( "Justice" ),
      RE.plusG pyIsSpace, RE.grp (RE.plusL azSpDot), nlAndEnd],
    reSeq [reLit ( "Justice" ), RE.plusG pyIsSpace, RE.grp (RE.plusL azSpDot),
      nlAndEnd],
    reSeq [RE.lit honble, RE.plusG pyIsSpace, reLit ( "Mr." ), RE.starG pyIsSpace,
      reLit ( "Justice" ), RE.plusG pyIsSpace, RE.grp (RE.plusL azSpDot), nlEnd] ]

/-- All judge matches of the docling variant: `findall` of every pattern
over the first 3000 characters, stripped, in pattern order. -/
def docling_judges_found (text : Str) : List Str :=
  docling_judge_patterns.flatMap fun p => (reFindAll p (text.take 3000)).map pyStrip

/-- The docling versus pattern with lazy groups and a line boundary. -/
def docling_versus_pattern : RE :=
  reSeq [RE.grp (RE.plusL azSpDot), RE.plusG pyIsSpace, RE.opt (RE.lit ['-']),
    RE.starG pyIsSpace, reLiti ( "versus" ), RE.starG pyIsSpace,
    RE.opt (RE.lit ['-']), RE.starG pyIsSpace, RE.grp (RE.plusL azSpDot), nlEnd]

/-- Parties extraction of the docling variant. -/
def docling_parties (text : Str) : List (Str × Str) :=
  match reSearch docling_versus_pattern text with
  | some r =>
      dictSet (dictSet [] plaintiffK (pyStrip ((r.2[0]?).getD [])))
        defendantK (pyStrip ((r.2[1]?).getD []))
  | none => []

/-- The slash- or dash-separated date: two digits, a separator, two digits, a separator, four digits. -/
def dateSlashDash : List RE :=
  [RE.rep Char.isDigit 2, RE.cls slashDash, RE.rep Char.isDigit 2,
   RE.cls slashDash, RE.rep Char.isDigit 4]

/-- The two docling hearing patterns. -/
def docling_hearing_patterns : List RE :=
  [ manual_hearing_pattern,
    reSeq [reLit ( "Date of Hearing:" ), RE.starG pyIsSpace,
      RE.grp (reSeq dateSlashDash)] ]

/-- Hearing-date extraction of the docling variant (group 1, stripped). -/
def docling_hearing (text : Str) : Option Str :=
  (firstMatch docling_hearing_patterns text).map fun r => pyStrip ((r.2.head?).getD [])

/-- The two docling judgment patterns. -/
def docling_judgment_patterns : List RE :=
  [ manual_judgment_pattern,
    reSeq [reLit ( "Date of Judgment:" ), RE.starG pyIsSpace,
      RE.grp (reSeq dateSlashDash)] ]

/-- Judgment-date extraction of the docling variant (group 1, stripped). -/
def docling_judgment (text : Str) : Option Str :=
  (firstMatch docling_judgment_patterns text).map fun r => pyStrip ((r.2.head?).getD [])

/-- The `CaseMetadata` record of the docling variant. -/
structure DoclingCaseMetadata where
  case_number : Option Str := none
  court : Option Str := none
  judges : List Str := []
  district : Option Str := none
  case_type : Option Str := none
  parties : List (Str × Str) := []
  hearing_date : Option Str := none
  judgment_date : Option Str := none
deriving DecidableEq

/-- `extract_metadata` of the docling variant. -/
def docling_extract_metadata (text fname : Str) : DoclingCaseMetadata :=
  { case_number := docling_case_number text fname
    court := docling_court text
    judges := (dedupFirst (docling_judges_found text)).take 5
    district := docling_district text
    case_type := find_case_type text
    parties := docling_parties text
    hearing_date := docling_hearing text
    judgment_date := docling_judgment text }

/-! ## CaseProcessor (`ingest_legal_cases.py`, `process_pdf`, lines 320–372) -/

/-- The document-level failure kinds of the processing pipeline: the raw
text too short (the source returns `(False, None)` at line 329 and writes no
output files), or the normalized text empty (line 342, likewise). -/
inductive ProcessError where
  | extractionInsufficient : ProcessError
  | normalizationEmpty : ProcessError
deriving DecidableEq

/-- `LegalCaseExtractor.process_pdf` on already-extracted raw text: fail if
the stripped raw text is shorter than 100 characters; extract metadata from
the raw text; convert; set the conversion flag; normalize the converted
text; fail if nothing remains; otherwise the clean text and metadata (the
pair the source writes to the output files). -/
def process_pdf (convert_bijoy : Bool) (codec : Str → Option Str)
    (raw_text stem : Str) : Except ProcessError (Str × CaseMetadata) :=
  if (pyStrip raw_text).length < 100 then
    Except.error ProcessError.extractionInsufficient
  else if (pyStrip (normalize_text
      (convert_bengali_to_unicode convert_bijoy codec raw_text).1)).length = 0 then
    Except.error ProcessError.normalizationEmpty
  else
    Except.ok (normalize_text (convert_bengali_to_unicode convert_bijoy codec raw_text).1,
      { manual_extract_metadata raw_text stem with
        converted_to_unicode := (convert_bengali_to_unicode convert_bijoy codec raw_text).2 })

/-! ### C1: the `Civil Appeal No. 45 of 2020` extraction -/

/-- The claim's input text. -/
def civText : Str := String.data ( "Civil Appeal No. 45 of 2020" )

/-- A filename stem without the digits-underscore fallback shape. -/
def civStem : Str := String.data ( "case" )

/-- The expected case type. -/
def civType : Str := String.data ( "Civil Appeal" )

/-- C1 counterexample: the manual variant's case-number pattern list has no
Civil Appeal pattern, so on a text that is exactly
`Civil Appeal No. 45 of 2020` (with a filename that misses the fallback
shape) its `case_number` stays unset instead of resolving to the matched
string; only `case_type` resolves. -/
theorem c1_counterexample :
    (manual_extract_metadata civText civStem).case_number = none ∧
    (manual_extract_metadata civText civStem).case_type = some civType := by
  exact ⟨rfl, rfl⟩

/-- C1 (amended): on the text `Civil Appeal No. 45 of 2020` the docling
variant's `extract_metadata` resolves `case_number` to exactly that string
and `case_type` to `Civil Appeal`, for every filename; the manual variant
resolves only `case_type` that way (its pattern list lacks Civil Appeal). -/
theorem c1_extract_civil_appeal (fname : Str) :
    (docling_extract_metadata civText fname).case_number = some civText ∧
    (docling_extract_metadata civText fname).case_type = some civType ∧
    (manual_extract_metadata civText fname).case_type = some civType := by
  exact ⟨rfl, rfl, rfl⟩

/-! ### C8: the judges list is capped at five and duplicate-free -/

theorem dedupFirstAux_sublist (seen : List Str) (l : List Str) :
    List.Sublist (dedupFirstAux seen l) (l):= by
  induction l generalizing seen with
  | nil => simp [dedupFirstAux]
  | cons x xs ih =>
    unfold dedupFirstAux
    split
    · exact (ih seen).cons x
    · exact (ih (x :: seen)).cons₂ x

theorem dedupFirstAux_not_mem_seen {seen : List Str} {l : List Str} {x : Str}
    (hx : x ∈ dedupFirstAux seen l) : x ∉ seen := by
  induction l generalizing seen with
  | nil => simp [dedupFirstAux] at hx
  | cons y ys ih =>
    unfold dedupFirstAux at hx
    split at hx
    · exact ih hx
    · rename_i hy
      rw [List.mem_cons] at hx
      rcases hx with rfl | hx
      · exact hy
      · intro hseen
        exact ih hx (List.mem_cons_of_mem y hseen)

theorem dedupFirstAux_nodup (seen : List Str) (l : List Str) :
    (dedupFirstAux seen l).Nodup := by
  induction l generalizing seen with
  | nil => simp [dedupFirstAux]
  | cons x xs ih =>
    unfold dedupFirstAux
    split
    · exact ih seen
    · refine List.nodup_cons.mpr ⟨?_, ih (x :: seen)⟩
      intro hmem
      exact dedupFirstAux_not_mem_seen hmem (List.mem_cons_self x seen)

/-- The shared shape of both judge lists: deduplicate preserving first
occurrences, then truncate to five. -/
theorem judges_take_spec (found : List Str) :
    ((dedupFirst found).take 5).length ≤ 5 ∧
    ((dedupFirst found).take 5).Nodup ∧
    List.Sublist ((dedupFirst found).take 5) (found):= by
  refine ⟨List.length_take_le 5 _, ?_, ?_⟩
  · exact ((List.take_sublist 5 _).nodup (dedupFirstAux_nodup [] found))
  · exact (List.take_sublist 5 _).trans (dedupFirstAux_sublist [] found)

/-- C8: in both variants the extracted judges list has at most five entries
and no duplicates (even when one name is matched by several title
patterns), and it is a sublist of the full match list, so deduplication
preserves first-occurrence order. -/
theorem c8_judges_capped_nodup (text fname : Str) :
    ((manual_extract_metadata text fname).judges.length ≤ 5 ∧
     (manual_extract_metadata text fname).judges.Nodup ∧
     List.Sublist (manual_extract_metadata text fname).judges (manual_judges_found text)) ∧
    ((docling_extract_metadata text fname).judges.length ≤ 5 ∧
     (docling_extract_metadata text fname).judges.Nodup ∧
     List.Sublist (docling_extract_metadata text fname).judges (docling_judges_found text)) :=
  ⟨judges_take_spec (manual_judges_found text),
   judges_take_spec (docling_judges_found text)⟩

/-! ### C10: the parties mapping holds both roles or neither -/

/-- C10: in both variants the parties mapping is either empty (no Versus
match) or holds exactly the two keys `plaintiff` and `defendant`, both set
from the same single Versus match. -/
theorem c10_parties_both_or_none (text fname : Str) :
    ((manual_extract_metadata text fname).parties = [] ∧
       reSearch manual_versus_pattern text = none ∨
     ∃ r, reSearch manual_versus_pattern text = some r ∧
       (manual_extract_metadata text fname).parties =
         [(plaintiffK, pyStrip ((r.2[0]?).getD [])),
          (defendantK, pyStrip ((r.2[1]?).getD []))]) ∧
    ((docling_extract_metadata text fname).parties = [] ∧
       reSearch docling_versus_pattern text = none ∨
     ∃ r, reSearch docling_versus_pattern text = some r ∧
       (docling_extract_metadata text fname).parties =
         [(plaintiffK, pyStrip ((r.2[0]?).getD [])),
          (defendantK, pyStrip ((r.2[1]?).getD []))]) := by
  constructor
  · rcases h : reSearch manual_versus_pattern text with _ | r
    · exact Or.inl ⟨by simp [manual_extract_metadata, manual_parties, h], rfl⟩
    · refine Or.inr ⟨r, rfl, ?_⟩
      show manual_parties text = _
      simp +decide [manual_parties, h, dictSet, plaintiffK, defendantK]
  · rcases h : reSearch docling_versus_pattern text with _ | r
    · exact Or.inl ⟨by simp [docling_extract_metadata, docling_parties, h], rfl⟩
    · refine Or.inr ⟨r, rfl, ?_⟩
      show docling_parties text = _
      simp +decide [docling_parties, h, dictSet, plaintiffK, defendantK]

/-! ### C3, C5, C9: the orchestration of `process_pdf` -/

/-- Decomposition of a successful `process_pdf` run: the clean text is the
normalization of the conversion of the raw text, and the metadata is the
extraction from the raw text with only the conversion flag updated. -/
theorem process_pdf_ok_decomp (cb : Bool) (codec : Str → Option Str)
    (raw stem clean : Str) (md : CaseMetadata)
    (h : process_pdf cb codec raw stem = Except.ok (clean, md)) :
    clean = normalize_text ((convert_bengali_to_unicode cb codec raw).1) ∧
    md = { manual_extract_metadata raw stem with
           converted_to_unicode := (convert_bengali_to_unicode cb codec raw).2 } := by
  unfold process_pdf at h
  split at h
  · cases h
  · split at h
    · cases h
    · simp only [Except.ok.injEq, Prod.mk.injEq] at h
      exact ⟨h.1.symm, h.2.symm⟩

/-- C3 (amended): whenever `process_pdf` succeeds, its clean text equals
`normalize_text` applied to the output of `convert_bengali_to_unicode` on
the raw text (never the raw text itself), and its metadata equals
`extract_metadata` applied to the raw pre-conversion text, updated only in
the `converted_to_unicode` flag set from the conversion result. -/
theorem c3_process_pdf_dataflow (cb : Bool) (codec : Str → Option Str)
    (raw stem clean : Str) (md : CaseMetadata)
    (h : process_pdf cb codec raw stem = Except.ok (clean, md)) :
    clean = normalize_text ((convert_bengali_to_unicode cb codec raw).1) ∧
    md = { manual_extract_metadata raw stem with
           converted_to_unicode := (convert_bengali_to_unicode cb codec raw).2 } :=
  process_pdf_ok_decomp cb codec raw stem clean md h

/-- A codec that always succeeds with one Bengali-block character. -/
def cxCodec : Str → Option Str := fun _ => some [Char.ofNat 0x0985]

/-- A 103-character document: one hundred digits, then a Bijoy line of two
marker characters. -/
def cxRaw : Str :=
  List.replicate 100 '0' ++ '\n' :: [Char.ofNat 0x2020, Char.ofNat 0x2020]

/-- The clean text of the conversion-performing run. -/
def cxClean : Str := normalize_text ((convert_bengali_to_unicode true cxCodec cxRaw).1)

/-- The metadata of the conversion-performing run. -/
def cxMd : CaseMetadata :=
  { manual_extract_metadata cxRaw [] with
    converted_to_unicode := (convert_bengali_to_unicode true cxCodec cxRaw).2 }

set_option maxRecDepth 8000 in
/-- C3 counterexample: in a run that converts a line, the returned metadata
has `converted_to_unicode = true` while `extract_metadata raw filename`
leaves it `false`, so the result is not literally the pair with
`extract_metadata raw filename`. -/
theorem c3_counterexample :
    process_pdf true cxCodec cxRaw [] = Except.ok (cxClean, cxMd) ∧
    cxMd.converted_to_unicode = true ∧
    (manual_extract_metadata cxRaw []).converted_to_unicode = false := by
  refine ⟨?_, by decide, by decide⟩
  unfold process_pdf
  rw [if_neg (by decide), if_neg (by decide)]
  rfl

/-- A codec that always fails. -/
def c3Codec : Str → Option Str := fun _ => none

/-- A 120-digit raw document. -/
def c3Raw : Str := List.replicate 120 '0'

/-- The clean text of the conversion-free run. -/
def c3Clean : Str := normalize_text ((convert_bengali_to_unicode false c3Codec c3Raw).1)

/-- The metadata of the conversion-free run. -/
def c3Md : CaseMetadata :=
  { manual_extract_metadata c3Raw [] with
    converted_to_unicode := (convert_bengali_to_unicode false c3Codec c3Raw).2 }

set_option maxRecDepth 8000 in
/-- Witness for C3 at a concrete successful run. -/
theorem c3_witness :
    process_pdf false c3Codec c3Raw [] = Except.ok (c3Clean, c3Md) ∧
    (c3Clean = normalize_text ((convert_bengali_to_unicode false c3Codec c3Raw).1) ∧
     c3Md = { manual_extract_metadata c3Raw [] with
              converted_to_unicode := (convert_bengali_to_unicode false c3Codec c3Raw).2 }) := by
  have hok : process_pdf false c3Codec c3Raw [] = Except.ok (c3Clean, c3Md) := by
    unfold process_pdf
    rw [if_neg (by decide), if_neg (by decide)]
    rfl
  exact ⟨hok, c3_process_pdf_dataflow false c3Codec c3Raw [] c3Clean c3Md hok⟩

/-- Encoding detection never reports an encoding without the flag: if the
verdict is `some`, `has_bengali` is `true`. -/
theorem detect_encoding_some_imp_flag (text : Str)
    (h : ((detect_encoding text).2.1).isSome = true) :
    (detect_encoding text).1 = true := by
  simp only [detect_encoding] at h ⊢
  split_ifs at h ⊢ <;> simp_all

/-- The conversion flag implies a positive converted-line count. -/
theorem convert_flag_imp_count (cb : Bool) (codec : Str → Option Str) (text : Str)
    (h : (convert_bengali_to_unicode cb codec text).2 = true) :
    0 < convertedLineCount codec text := by
  simp only [convert_bengali_to_unicode] at h
  split_ifs at h with h1 h2
  all_goals simp_all

/-- C5: for every document processed to completion, the resulting metadata
has `original_encoding` set only if `has_bengali` is true, and
`converted_to_unicode` true only if the per-document converted-line count
is positive. -/
theorem c5_metadata_invariant (cb : Bool) (codec : Str → Option Str)
    (raw stem clean : Str) (md : CaseMetadata)
    (h : process_pdf cb codec raw stem = Except.ok (clean, md)) :
    (md.original_encoding.isSome = true → md.has_bengali = true) ∧
    (md.converted_to_unicode = true → 0 < convertedLineCount codec raw) := by
  obtain ⟨-, hmd⟩ := process_pdf_ok_decomp cb codec raw stem clean md h
  subst hmd
  constructor
  · intro hs
    exact detect_encoding_some_imp_flag raw hs
  · intro hc
    exact convert_flag_imp_count cb codec raw hc

/-- A 120-character Bengali-block document. -/
def c5Raw : Str := List.replicate 120 (Char.ofNat 0x0985)

/-- The clean text of the Bengali run. -/
def c5Clean : Str := normalize_text ((convert_bengali_to_unicode false c3Codec c5Raw).1)

/-- The metadata of the Bengali run. -/
def c5Md : CaseMetadata :=
  { manual_extract_metadata c5Raw [] with
    converted_to_unicode := (convert_bengali_to_unicode false c3Codec c5Raw).2 }

set_option maxRecDepth 8000 in
/-- Witness for C5: a successful Bengali run discharges the first
implication; the conversion-performing run of `cxRaw` discharges the
second. -/
theorem c5_witness :
    process_pdf false c3Codec c5Raw [] = Except.ok (c5Clean, c5Md) ∧
    c5Md.has_bengali = true ∧
    0 < convertedLineCount cxCodec cxRaw := by
  have hok : process_pdf false c3Codec c5Raw [] = Except.ok (c5Clean, c5Md) := by
    unfold process_pdf
    rw [if_neg (by decide), if_neg (by decide)]
    rfl
  refine ⟨hok, ?_, ?_⟩
  · exact (c5_metadata_invariant false c3Codec c5Raw [] c5Clean c5Md hok).1 (by decide)
  · exact (c5_metadata_invariant true cxCodec cxRaw [] cxClean cxMd (by
      unfold process_pdf
      rw [if_neg (by decide), if_neg (by decide)]
      rfl)).2 (by decide)

/-! ### C9: insufficient raw text fails without output -/

/-- C9: when the raw text is absent or its stripped length is below the
100-character floor, `process_pdf` returns the `extractionInsufficient`
failure (the source returns `(False, None)` and writes no output file). -/
theorem c9_insufficient_text_fails (cb : Bool) (codec : Str → Option Str)
    (raw stem : Str) (h : (pyStrip raw).length < 100) :
    process_pdf cb codec raw stem = Except.error ProcessError.extractionInsufficient := by
  unfold process_pdf
  rw [if_pos h]

/-- A 40-character document, below the floor. -/
def c9Raw : Str := List.replicate 40 'x'

/-- Witness for C9 at the spec's 40-character example. -/
theorem c9_witness :
    (pyStrip c9Raw).length < 100 ∧
    process_pdf false c3Codec c9Raw [] =
      Except.error ProcessError.extractionInsufficient :=
  ⟨by decide, c9_insufficient_text_fails false c3Codec c9Raw [] (by decide)⟩
